import Mathlib

/-!
Shallow embedding of the LayoutLearner repository (Go) for checking its
natural-language specification.

Modelling conventions, used throughout:
* Go `rune` is modelled as `Nat` (code points; the Go zero value is `0`,
  the space character is `32`).  Go strings are lists of runes; `len` on a
  Go string counts bytes, which coincides with the rune count on the ASCII
  corpora this program is written for.
* Go's global `math/rand` source is modelled as an explicit stream
  `List Nat` of draws; each `rand.Intn n` consumes the head of the stream
  and reduces it `% n`, matching the range `[0, n)`.  A call site that does
  not reach `rand.Intn` leaves the stream untouched.
* Go maps with integer values (`map[rune]int`) read `0` for an absent key,
  so `charsUsed` is a total function `Nat → Nat` starting at `fun _ => 0`;
  the Go initialisation loop that stores `0` for every key is a semantic
  no-op and is dropped.  Maps with struct values are association lists in
  iteration order; Go randomises map iteration order, so functions whose
  result depends on it take the order as an explicit input.
* Go `float64` is modelled as `ℚ` (every computation the claims touch is
  exact: small integer sums, products and quotients); `int`/`int64` as
  `Nat`/`Int` (the program only increments small counters, so wrap-around
  is out of scope), with `Int.tdiv` for Go's truncating integer division.
* Division by zero yields Go `+Inf`/`NaN` but `0` in `ℚ`; no theorem below
  relies on a division whose divisor can be zero under its hypotheses.
-/

/-- Rune code of the space character, Go `' '`, which `GenerateWord` uses as
its it-went-wrong sentinel. -/
def runeSpace : Nat := 32

/-- Go `strings.ToLower` restricted to ASCII (the program's corpora are
ASCII word lists; Unicode folding is irrelevant to every claim). -/
def runeToLower (c : Nat) : Nat :=
  if 65 ≤ c ∧ c ≤ 90 then c + 32 else c

/-- Go `charsUsed[char] += 1` on the usage map. -/
def bumpUsage (used : Nat → Nat) (c : Nat) : Nat → Nat :=
  fun x => if x = c then used x + 1 else used x

/-- Embedding of `getRandomCharacter` (src/internal/dictionary/dictionary.go,
lines 108-125): filter `chars` down to the unexcluded characters used fewer
than `maxUsage` times, pick one uniformly (here: by the next stream draw), or
return `' '` when none is available.  Returns the picked rune and the rest of
the stream. -/
def getRandomCharacter (chars : List Nat) (used : Nat → Nat) (maxUsage : Nat)
    (exclude : Nat) (rng : List Nat) : Nat × List Nat :=
  let availableChars := chars.filter (fun c => decide (c ≠ exclude) && decide (used c < maxUsage))
  if 0 < availableChars.length then
    (availableChars.getD (rng.headD 0 % availableChars.length) runeSpace, rng.tail)
  else
    (runeSpace, rng)

/-- Embedding of the `for i := 0; i < length; i++` loop of `GenerateWord`
(dictionary.go lines 72-100), recursing on the remaining iteration count `n`
(so `i + n = length` at every call).  State: the word built so far, the usage
map, `previousCharacter` (Go zero value `0` before any pick) and
`charInARow`.  The priority-placement branch appends without touching
`previousCharacter`/`charInARow`, exactly as the Go `continue` does. -/
def genLoop (chars : List Nat) (priority pp maxUsage : Nat) :
    Nat → Nat → List Nat → (Nat → Nat) → Nat → Nat → List Nat → List Nat × List Nat
  | 0, _, word, _, _, _, rng => (word, rng)
  | n + 1, i, word, used, prev, cia, rng =>
    if i = pp ∧ prev ≠ priority then
      genLoop chars priority pp maxUsage n (i + 1) (word ++ [priority])
        (bumpUsage used priority) prev cia rng
    else
      let pick := getRandomCharacter chars used maxUsage (if cia = 2 then prev else 0) rng
      if pick.1 = runeSpace then (word, pick.2)
      else
        genLoop chars priority pp maxUsage n (i + 1) (word ++ [pick.1])
          (bumpUsage used pick.1) pick.1 (if pick.1 = prev then cia + 1 else 1) pick.2

/-- The target length `rand.Intn(maxLength-minLength) + minLength` drawn at
the top of `GenerateWord` (dictionary.go line 60). -/
def wordTargetLength (minLength maxLength : Nat) (rng : List Nat) : Nat :=
  rng.headD 0 % (maxLength - minLength) + minLength

/-- Embedding of `GenerateWord` (dictionary.go lines 59-103).  Returns the
generated word and the rest of the random stream. -/
def GenerateWord (chars : List Nat) (priorityCharacter : Nat)
    (minLength maxLength : Nat) (rng : List Nat) : List Nat × List Nat :=
  let length := wordTargetLength minLength maxLength rng
  let priorityPosition := rng.tail.headD 0 % length
  genLoop chars priorityCharacter priorityPosition (length / 2)
    length 0 [] (fun _ => 0) 0 0 rng.tail.tail

/-- The per-word filter of `GetWordsFromChars` (dictionary.go lines 145-167):
length within `[minLength, maxLength]`, every character in `chars`, and the
priority character present.  The Go loop breaks at the first invalid
character; keeping the word iff it has no invalid character and contains the
priority is equivalent. -/
def wordMatches (chars : List Nat) (priorityChar : Nat) (minLength maxLength : Nat)
    (w : List Nat) : Bool :=
  decide (w.length ≤ maxLength) && decide (minLength ≤ w.length)
    && w.all (fun c => chars.contains c) && w.contains priorityChar

/-- The corpus after the per-line `strings.ToLower` of the scanners in
dictionary.go (lines 30, 148). -/
def foldedCorpus (corpus : List (List Nat)) : List (List Nat) :=
  corpus.map (List.map runeToLower)

/-- The list `words` of corpus words passing the filter of
`GetWordsFromChars` (dictionary.go lines 142-168), in corpus order. -/
def foundWords (corpus : List (List Nat)) (chars : List Nat) (priorityChar : Nat)
    (minLength maxLength : Nat) : List (List Nat) :=
  (foldedCorpus corpus).filter (wordMatches chars priorityChar minLength maxLength)

/-- Embedding of the top-up loop of `GetWordsFromChars` (dictionary.go lines
170-174): `for i := 0; i < 4 - len(words); i++`, whose bound `4 - len(words)`
is re-evaluated while `words` grows (Go int subtraction can go negative,
which stops the loop just as Nat truncated subtraction does here). -/
def topUp (chars : List Nat) (priorityChar : Nat) (minLength maxLength : Nat)
    (words : List (List Nat)) (i : Nat) (rng : List Nat) : List (List Nat) × List Nat :=
  if h : i < 4 - words.length then
    let g := GenerateWord chars priorityChar minLength maxLength rng
    topUp chars priorityChar minLength maxLength (words ++ [g.1]) (i + 1) g.2
  else
    (words, rng)
termination_by 4 - words.length
decreasing_by simp only [List.length_append, List.length_cons, List.length_nil]; omega

/-- The candidate pool of `GetWordsFromChars` right before the drawing loop
(dictionary.go line 176): the filtered corpus words, topped up by the guarded
generation loop (the `if len(words) < 4` guard is subsumed by the loop's own
first test). -/
def candidatePool (corpus : List (List Nat)) (chars : List Nat) (priorityChar : Nat)
    (minLength maxLength : Nat) (rng : List Nat) : List (List Nat) × List Nat :=
  topUp chars priorityChar minLength maxLength
    (foundWords corpus chars priorityChar minLength maxLength) 0 rng

/-- Embedding of the drawing loop of `GetWordsFromChars` (dictionary.go lines
176-179): `amount` draws with replacement, each by `rand.Intn(len(words))`. -/
def drawLoop (pool : List (List Nat)) : Nat → List Nat → List (List Nat)
  | 0, _ => []
  | n + 1, rng => pool.getD (rng.headD 0 % pool.length) [] :: drawLoop pool n rng.tail

/-- Embedding of `GetWordsFromChars` (dictionary.go lines 130-183). -/
def GetWordsFromChars (corpus : List (List Nat)) (chars : List Nat) (priorityChar : Nat)
    (minLength maxLength amount : Nat) (rng : List Nat) : List (List Nat) :=
  let pool := candidatePool corpus chars priorityChar minLength maxLength rng
  drawLoop pool.1 amount pool.2

/-- The occurrence count `characterOccurences[c]` built by the scanner of
`GetCharacterPriority` (dictionary.go lines 29-39). -/
def countOccurrences (corpus : List (List Nat)) (c : Nat) : Nat :=
  (foldedCorpus corpus).flatten.count c

/-- The distinct characters of the folded corpus in first-seen scan order:
the key set of `characterOccurences` with a canonical enumeration. -/
def firstSeenKeys (corpus : List (List Nat)) : List Nat :=
  (foldedCorpus corpus).flatten.foldl (fun acc c => if c ∈ acc then acc else acc ++ [c]) []

/-- Stable insertion into a list sorted by strictly descending `f`-value:
one step of the model of `sort.Slice(characters, count[i] > count[j])`. -/
def insertByCountDesc (f : Nat → Nat) (c : Nat) : List Nat → List Nat
  | [] => [c]
  | d :: rest => if f c < f d then d :: insertByCountDesc f c rest else c :: d :: rest

/-- Stable sort by descending `f`-value (insertion sort). -/
def sortByCountDesc (f : Nat → Nat) : List Nat → List Nat
  | [] => []
  | c :: rest => insertByCountDesc f c (sortByCountDesc f rest)

/-- Embedding of `GetCharacterPriority` (dictionary.go lines 18-53).  Go
iterates the `characterOccurences` map in a randomised order to build the
`characters` slice and then applies the unstable `sort.Slice`; the iteration
order is therefore an explicit input `order` (any permutation of the key
set), and the sort is modelled as a stable sort on that order, so the set of
reachable outputs is exactly the sorted-by-descending-count permutations the
Go code can produce. -/
def GetCharacterPriority (corpus : List (List Nat)) (order : List Nat) : List Nat :=
  sortByCountDesc (countOccurrences corpus) order

/-- Modelled from the spec: the output §4.1 of the spec describes, with ties
between equal counts broken by first-seen order during the scan (the
refinement target `GetCharacterPriority` is compared against). -/
def specCharacterPriority (corpus : List (List Nat)) : List Nat :=
  sortByCountDesc (countOccurrences corpus) (firstSeenKeys corpus)

/-- Embedding of `shared.CharacterAccuracy` (src/internal/shared/shared.go
lines 8-14), plus the `Score` field that gamelogic.go reads and writes on it
(`ca.Score` in `updateAccuracy`, `getPriorityCharacter` and the seeding in
`newGame`).  `float64` fields are `ℚ`, `int64` fields are `ℤ`. -/
structure CharacterAccuracy where
  Correct : Int
  Attempts : Int
  Accuracy : ℚ
  TotalTime : Int
  AverageTime : Int
  Score : ℚ
deriving DecidableEq

/-- The Go zero value of `shared.CharacterAccuracy`, read for an absent map
key. -/
def zeroCA : CharacterAccuracy :=
  { Correct := 0, Attempts := 0, Accuracy := 0, TotalTime := 0, AverageTime := 0, Score := 0 }

/-- The stat `newGame` seeds for a character first entering play
(gamelogic.go lines 146-150): `Attempts: 0, Correct: 0, Score: -1`, the
remaining fields at their Go zero values. -/
def seedCA : CharacterAccuracy :=
  { zeroCA with Score := -1 }

/-- Go map read `gameCtx.CharacterAccuracies[char]` on the association-list
model: the stored stat, or the zero value when absent. -/
def lookupCA (m : List (Nat × CharacterAccuracy)) (c : Nat) : CharacterAccuracy :=
  match m.find? (fun p => p.1 = c) with
  | some p => p.2
  | none => zeroCA

/-- Go map write `gameCtx.CharacterAccuracies[char] = ca`: replace the entry
in place, or append a new one. -/
def insertCA (m : List (Nat × CharacterAccuracy)) (c : Nat) (ca : CharacterAccuracy) :
    List (Nat × CharacterAccuracy) :=
  if m.any (fun p => p.1 = c) then
    m.map (fun p => if p.1 = c then (c, ca) else p)
  else
    m ++ [(c, ca)]

/-- Embedding of `gamelogic.GameSettings` (gamelogic.go lines 32-40). -/
structure GameSettings where
  NumChars : Nat
  MaxWordLength : Nat
  MinWordLength : Nat
  WordCount : Nat
  TargetCPM : Int
  AccuracyWeight : ℚ
  TimeWeight : ℚ
deriving DecidableEq

/-- The settings `StartGame` installs (gamelogic.go lines 81-89). -/
def defaultSettings : GameSettings :=
  { NumChars := 5, MaxWordLength := 5, MinWordLength := 3, WordCount := 10,
    TargetCPM := 250, AccuracyWeight := 1 / 2, TimeWeight := 1 / 2 }

/-- The per-stat body of `updateAccuracy` (gamelogic.go lines 174-202):
bump `Attempts` (and `Correct` on success), recompute `Accuracy` with the
division-by-zero guard, and recompute `Score` from the accuracy and the
speed score.  Go's truncating `int` division is `Int.tdiv`; the
`float64` divisions are exact in `ℚ` (the speed-score divisor is
`targetSpeedMs - lowerBound`, nonzero for the program's `TargetCPM`). -/
def updateAccuracyCA (s : GameSettings) (ca : CharacterAccuracy) (success : Bool) :
    CharacterAccuracy :=
  let attempts := ca.Attempts + 1
  let correct := if success then ca.Correct + 1 else ca.Correct
  let accuracy := if 0 < attempts then (correct : ℚ) / (attempts : ℚ) else 0
  let targetSpeedMs := Int.tdiv 60000 s.TargetCPM
  let lowerBound := Int.tdiv targetSpeedMs 2
  let speed := if ca.AverageTime < lowerBound then lowerBound else ca.AverageTime
  let speedScore : ℚ := 1 - ((speed - lowerBound : Int) : ℚ) / ((targetSpeedMs - lowerBound : Int) : ℚ)
  { ca with
    Attempts := attempts,
    Correct := correct,
    Accuracy := accuracy,
    Score := accuracy * s.AccuracyWeight + speedScore * s.TimeWeight }

/-- Embedding of `updateAccuracy` (gamelogic.go lines 174-202) at the map
level: read the stat (zero value when absent), update it, store it back. -/
def updateAccuracy (s : GameSettings) (m : List (Nat × CharacterAccuracy)) (c : Nat)
    (success : Bool) : List (Nat × CharacterAccuracy) :=
  insertCA m c (updateAccuracyCA s (lookupCA m c) success)

/-- A sequence of recorded attempts applied to one character's stat,
starting from the stat `newGame` seeds. -/
def applyAttempts (s : GameSettings) (l : List Bool) : CharacterAccuracy :=
  l.foldl (updateAccuracyCA s) seedCA

/-- The scanning loop of `getPriorityCharacter` (gamelogic.go lines 209-218)
over the stats in iteration order, carrying `least` (started at `1.0`) and
the current candidate (started at `currentChars[0]`). -/
def gpcLoop : List (Nat × CharacterAccuracy) → ℚ → Nat → Nat
  | [], _, pc => pc
  | (c, ca) :: rest, least, pc =>
    if c = runeSpace then gpcLoop rest least pc
    else if ca.Score < least then gpcLoop rest ca.Score c
    else gpcLoop rest least pc

/-- Embedding of `getPriorityCharacter` (gamelogic.go lines 205-221).  The
stats map is an association list in iteration order; `currentChars[0]` is
`headD 0` (Go panics on an empty slice, which the claims' hypotheses
exclude). -/
def getPriorityCharacter (currentChars : List Nat)
    (accuracies : List (Nat × CharacterAccuracy)) : Nat :=
  gpcLoop accuracies 1 (currentChars.headD 0)

/-- The `words += fmt.Sprintf("%s ", word)` join of `newGame`
(gamelogic.go lines 134-137): each word followed by one space. -/
def joinWords (ws : List (List Nat)) : List Nat :=
  ws.foldl (fun acc w => acc ++ w ++ [runeSpace]) []

/-- The seeding loop of `newGame` (gamelogic.go lines 144-152): characters of
the current subset absent from the stats map get the fresh seeded stat. -/
def seedAccuracies (m : List (Nat × CharacterAccuracy)) (cs : List Nat) :
    List (Nat × CharacterAccuracy) :=
  cs.foldl (fun acc c => if acc.any (fun p => p.1 = c) then acc else acc ++ [(c, seedCA)]) m

/-- Color words written into `MainColorMap`; opaque tokens for the tview
color names the handlers store. -/
inductive Color where
  | white
  | blue
  | red
deriving DecidableEq

/-- Which input-capture function is installed: `gameInputHandler` or
`endScreenInputHandler` (the channel hand-off of gamelogic.go collapses to
this field; see §5 of the spec). -/
inductive HandlerKind where
  | game
  | endScreen
deriving DecidableEq

/-- A `tcell.EventKey` as the handlers inspect it: the three key tests and
the rune payload. -/
structure KeyEvent where
  isEscape : Bool
  isBackspace : Bool
  isEnter : Bool
  keyRune : Nat
deriving DecidableEq

/-- A plain character keystroke. -/
def charEvent (c : Nat) : KeyEvent :=
  { isEscape := false, isBackspace := false, isEnter := false, keyRune := c }

/-- The escape keystroke (quit signal). -/
def escapeEvent : KeyEvent :=
  { isEscape := true, isBackspace := false, isEnter := false, keyRune := 0 }

/-- The enter keystroke (confirm signal on the end screen). -/
def enterEvent : KeyEvent :=
  { isEscape := false, isBackspace := false, isEnter := true, keyRune := 0 }

/-- The mutable state of the session: `gameCtx` (gamelogic.go lines 17-29)
together with the graphics facts the claims mention: `MainColorMap`, latches
recording that `ShowEndScreen`/`ShowErrorScreen` ran (a later `DrawText` can
repaint over what they drew), the installed handler, and whether `App.Stop`
ran. -/
structure AppState where
  Words : List Nat
  CurrentCharIndex : Nat
  CharacterPriorities : List Nat
  PriorityCharacter : Nat
  CurrentChars : List Nat
  CharacterAccuracies : List (Nat × CharacterAccuracy)
  Correct : Nat
  Incorrect : Nat
  Started : Bool
  StartTimeCharacter : Int
  MainColorMap : List Color
  handler : HandlerKind
  endScreenShown : Bool
  endScreenAccuracy : ℚ
  errorScreenShown : Bool
  stopped : Bool
deriving DecidableEq

/-- The accuracy figure `ShowEndScreen` prints
(src/internal/graphics/graphics.go lines 100-105):
`(correct * 100) / (correct + incorrect)` over `float64`, exact in `ℚ`. -/
def showEndScreenAccuracy (correct incorrect : ℚ) : ℚ :=
  correct * 100 / (correct + incorrect)

/-- Embedding of `gameInputHandler` (src/unnamed/part_002, lines 14-65).
`now` stands for `time.Now().UnixMilli()` during this event.  Escape calls
`App.Stop` and (as in the source, which does not return there) processing
continues; backspace repaints and steps the cursor back with the floor at 0
(Nat subtraction); otherwise the keystroke is compared with the expected
character, the stat is recorded, and the cursor advances, switching to the
end screen when it reaches `len(Words) - 1`. -/
def gameInputHandler (s : GameSettings) (now : Int) (ev : KeyEvent) (st0 : AppState) :
    AppState :=
  let st : AppState := if ev.isEscape then { st0 with stopped := true } else st0
  if ev.isBackspace then
    { st with
      MainColorMap := st.MainColorMap.set st.CurrentCharIndex Color.white,
      CurrentCharIndex := st.CurrentCharIndex - 1 }
  else
    let expected := st.Words.getD st.CurrentCharIndex 0
    let st2 : AppState :=
      if ev.keyRune = expected then
        let stA : AppState := { st with
          CharacterAccuracies := updateAccuracy s st.CharacterAccuracies expected true }
        let stB : AppState :=
          if !stA.Started then
            { stA with Started := true, StartTimeCharacter := now }
          else
            let ca := lookupCA stA.CharacterAccuracies expected
            let tt := ca.TotalTime + (now - stA.StartTimeCharacter)
            { stA with
              CharacterAccuracies := insertCA stA.CharacterAccuracies expected
                { ca with TotalTime := tt, AverageTime := Int.tdiv tt ca.Attempts } }
        { stB with
          MainColorMap := stB.MainColorMap.set stB.CurrentCharIndex Color.blue,
          Correct := stB.Correct + 1 }
      else
        { st with
          CharacterAccuracies := updateAccuracy s st.CharacterAccuracies expected false,
          MainColorMap := st.MainColorMap.set st.CurrentCharIndex Color.red,
          Incorrect := st.Incorrect + 1 }
    let st3 : AppState := { st2 with CurrentCharIndex := st2.CurrentCharIndex + 1 }
    if st3.Words.length - 1 ≤ st3.CurrentCharIndex then
      { st3 with
        endScreenShown := true,
        endScreenAccuracy := showEndScreenAccuracy (st3.Correct : ℚ) (st3.Incorrect : ℚ),
        handler := HandlerKind.endScreen }
    else
      { st3 with StartTimeCharacter := now }

/-- Embedding of `newGame` (gamelogic.go lines 116-169).  The corpus read by
`GetWordsFromChars` is external I/O, so its result (words or a read error)
is an explicit input.  On success the lesson text, color map, seeded stats
and counters are reset and `gameInputHandler` is installed; on error
`ShowErrorScreen` is recorded and `endScreenInputHandler` is installed. -/
def newGame (s : GameSettings) (st : AppState)
    (wordsResult : Except String (List (List Nat))) : AppState :=
  let currentChars := st.CharacterPriorities.take s.NumChars
  let st := { st with
    CurrentChars := currentChars,
    PriorityCharacter := getPriorityCharacter currentChars st.CharacterAccuracies }
  match wordsResult with
  | Except.error _ =>
    { st with errorScreenShown := true, handler := HandlerKind.endScreen }
  | Except.ok wordsList =>
    let words := joinWords wordsList
    { st with
      Words := words,
      MainColorMap := List.replicate words.length Color.white,
      CharacterAccuracies := seedAccuracies st.CharacterAccuracies st.CurrentChars,
      CurrentCharIndex := 0,
      Correct := 0,
      Incorrect := 0,
      Started := false,
      handler := HandlerKind.game }

/-- Embedding of `endScreenInputHandler` (src/unnamed/part_002, lines 74-87):
enter starts a new lesson, escape stops the application.  The enter branch
runs `newGame()`, repaints (`Highlight`/`DrawText`, which redraws the lesson
text over whatever `newGame` drew) and then unconditionally sends
`gameInputHandler` on the handler channel (line 79).  The two channel sends
are applied in order by the coordinator goroutine, so this final send
supersedes the `endScreenInputHandler` that `newGame`'s error path sent: the
net installed handler after the enter branch is always the game handler,
modelled by overwriting the `handler` field `newGame` set. -/
def endScreenInputHandler (s : GameSettings)
    (wordsResult : Except String (List (List Nat))) (ev : KeyEvent) (st : AppState) :
    AppState :=
  if ev.isEnter then
    let st1 := newGame s st wordsResult
    { st1 with handler := HandlerKind.game }
  else if ev.isEscape then { st with stopped := true }
  else st

/-- One keystroke dispatched to the currently installed handler.  `now` and
`wordsResult` stand for the event's wall clock and (when a new lesson is
generated) the corpus read. -/
def stepMachine (s : GameSettings) (now : Int)
    (wordsResult : Except String (List (List Nat))) (ev : KeyEvent) (st : AppState) :
    AppState :=
  match st.handler with
  | HandlerKind.game => gameInputHandler s now ev st
  | HandlerKind.endScreen => endScreenInputHandler s wordsResult ev st

/-- A freshly started session over lesson text `w`: the fields `newGame`
resets, with the lesson text abstracted to `w`. -/
def freshSession (w : List Nat) : AppState :=
  { Words := w,
    CurrentCharIndex := 0,
    CharacterPriorities := [],
    PriorityCharacter := 0,
    CurrentChars := [],
    CharacterAccuracies := [],
    Correct := 0,
    Incorrect := 0,
    Started := false,
    StartTimeCharacter := 0,
    MainColorMap := List.replicate w.length Color.white,
    handler := HandlerKind.game,
    endScreenShown := false,
    endScreenAccuracy := 0,
    errorScreenShown := false,
    stopped := false }

/-- Feeding the machine the expected character at the cursor, `n` times in a
row (each keystroke at wall clock 0; the corpus result is irrelevant in the
active state). -/
def feedCorrect (s : GameSettings) : Nat → AppState → AppState
  | 0, st => st
  | n + 1, st =>
    feedCorrect s n
      (stepMachine s 0 (Except.ok []) (charEvent (st.Words.getD st.CurrentCharIndex 0)) st)

/-- Length of the maximal constant prefix of a list, plus-one form. -/
def rendAux : List Nat → Nat
  | [] => 0
  | c :: rest => (rest.takeWhile (fun x => decide (x = c))).length + 1

/-- Length of the maximal run of identical characters at the end of a word. -/
def rend (w : List Nat) : Nat := rendAux w.reverse

/-- Last character of a word (0 for the empty word, matching the Go zero
value of `previousCharacter`). -/
def lastD (w : List Nat) : Nat := w.reverse.headD 0

/-- Tracker-word agreement while the priority-placement branch has not fired:
the word is empty and the tracker is at its zero values, or `previousCharacter`
is the word's last character and `charInARow` is exactly the final run length,
which never exceeds 2. -/
def SyncInv (word : List Nat) (prev cia : Nat) : Prop :=
  (word = [] ∧ prev = 0 ∧ cia = 0) ∨
  (word ≠ [] ∧ prev = lastD word ∧ cia = rend word ∧ rend word ≤ 2)

/-- Weaker tracker-word agreement after the placement branch may have fired:
the final run has length at most 3, the tracker points at the last character
whenever the run has length 2 or more, and a run of length 3 forces the
exclusion counter to 2. -/
def PostInv (word : List Nat) (prev cia : Nat) : Prop :=
  rend word ≤ 3 ∧ (2 ≤ rend word → prev = lastD word ∧ 1 ≤ cia) ∧
  (rend word = 3 → cia = 2)

theorem topUp_length_lower (chars : List Nat) (pc minL maxL : Nat) :
    ∀ (fuel : Nat) (words : List (List Nat)) (i : Nat) (rng : List Nat),
      4 - (words.length + i) ≤ fuel →
      4 + words.length ≤ 2 * (topUp chars pc minL maxL words i rng).1.length + i := by
  intro fuel
  induction fuel with
  | zero =>
    intro words i rng hf
    have h : ¬ i < 4 - words.length := by omega
    rw [topUp, dif_neg h]
    show 4 + words.length ≤ 2 * words.length + i
    omega
  | succ n ih =>
    intro words i rng hf
    by_cases h : i < 4 - words.length
    · rw [topUp, dif_pos h]
      simp only []
      have := ih (words ++ [(GenerateWord chars pc minL maxL rng).1]) (i + 1)
        (GenerateWord chars pc minL maxL rng).2 (by simp; omega)
      simp only [List.length_append, List.length_cons, List.length_nil] at this ⊢
      omega
    · rw [topUp, dif_neg h]
      show 4 + words.length ≤ 2 * words.length + i
      omega

theorem topUp_mem (chars : List Nat) (pc minL maxL : Nat) :
    ∀ (fuel : Nat) (words : List (List Nat)) (i : Nat) (rng : List Nat) (w : List Nat),
      4 - (words.length + i) ≤ fuel →
      w ∈ (topUp chars pc minL maxL words i rng).1 →
      w ∈ words ∨ ∃ r, w = (GenerateWord chars pc minL maxL r).1 := by
  intro fuel
  induction fuel with
  | zero =>
    intro words i rng w hf hw
    have h : ¬ i < 4 - words.length := by omega
    rw [topUp, dif_neg h] at hw
    exact Or.inl hw
  | succ n ih =>
    intro words i rng w hf hw
    by_cases h : i < 4 - words.length
    · rw [topUp, dif_pos h] at hw
      simp only [] at hw
      rcases ih (words ++ [(GenerateWord chars pc minL maxL rng).1]) (i + 1)
        (GenerateWord chars pc minL maxL rng).2 w (by simp; omega) hw with hmem | hgen
      · rcases List.mem_append.mp hmem with h1 | h2
        · exact Or.inl h1
        · exact Or.inr ⟨rng, List.mem_singleton.mp h2⟩
      · exact hgen.elim (fun r hr => Or.inr ⟨r, hr⟩)
    · rw [topUp, dif_neg h] at hw
      exact Or.inl hw

theorem drawLoop_length (pool : List (List Nat)) :
    ∀ (n : Nat) (rng : List Nat), (drawLoop pool n rng).length = n := by
  intro n
  induction n with
  | zero => intro rng; rfl
  | succ m ih => intro rng; simp [drawLoop, ih]

theorem drawLoop_mem (pool : List (List Nat)) (hpool : 0 < pool.length) :
    ∀ (n : Nat) (rng : List Nat) (w : List Nat), w ∈ drawLoop pool n rng → w ∈ pool := by
  intro n
  induction n with
  | zero => intro rng w hw; simp [drawLoop] at hw
  | succ m ih =>
    intro rng w hw
    rw [drawLoop] at hw
    rcases List.mem_cons.mp hw with h1 | h2
    · have hlt : rng.headD 0 % pool.length < pool.length := Nat.mod_lt _ hpool
      rw [h1, List.getD_eq_getElem pool [] hlt]
      exact List.getElem_mem hlt
    · exact ih rng.tail w h2

theorem candidatePool_len (corpus : List (List Nat)) (chars : List Nat) (pc minL maxL : Nat)
    (rng : List Nat) : 2 ≤ (candidatePool corpus chars pc minL maxL rng).1.length := by
  have := topUp_length_lower chars pc minL maxL 4
    (foundWords corpus chars pc minL maxL) 0 rng (by omega)
  rw [candidatePool]
  omega

/-- C10: for every corpus, constraint set and amount, the candidate pool is
non-empty by the time the uniform draw runs (it always has at least two
words), every draw index `rand.Intn(len(words))` is within the pool's
bounds, and the sampler returns exactly `amount` words. -/
theorem c10_theorem : ∀ (corpus : List (List Nat)) (chars : List Nat) (pc minL maxL amount : Nat)
    (rng : List Nat),
    0 < (candidatePool corpus chars pc minL maxL rng).1.length ∧
    (∀ r : Nat, r % (candidatePool corpus chars pc minL maxL rng).1.length <
      (candidatePool corpus chars pc minL maxL rng).1.length) ∧
    (GetWordsFromChars corpus chars pc minL maxL amount rng).length = amount := by
  intro corpus chars pc minL maxL amount rng
  have h2 := candidatePool_len corpus chars pc minL maxL rng
  refine ⟨by omega, fun r => Nat.mod_lt _ (by omega), ?_⟩
  rw [GetWordsFromChars]
  exact drawLoop_length _ amount _

/-- C4: evaluation of the top-up loop at a corpus with zero matching words:
the pool ends with 2 words, not the at-least-4 the spec states, because the
loop bound `4 - len(words)` is re-evaluated while `words` grows. -/
theorem c4_theorem : (candidatePool [] [97] 97 2 3 [0, 0, 0, 0]).1.length = 2 := by
  simp [candidatePool, topUp, foundWords, foldedCorpus]

theorem updateAccuracyCA_attempts (s : GameSettings) (ca : CharacterAccuracy) (b : Bool) :
    (updateAccuracyCA s ca b).Attempts = ca.Attempts + 1 := by
  simp [updateAccuracyCA]

theorem updateAccuracyCA_correct (s : GameSettings) (ca : CharacterAccuracy) (b : Bool) :
    (updateAccuracyCA s ca b).Correct = ca.Correct + (if b then 1 else 0) := by
  cases b <;> simp [updateAccuracyCA]

theorem foldl_updateAccuracyCA_inv (s : GameSettings) :
    ∀ (l : List Bool) (ca : CharacterAccuracy), 0 ≤ ca.Correct → ca.Correct ≤ ca.Attempts →
      0 ≤ (l.foldl (updateAccuracyCA s) ca).Correct ∧
      (l.foldl (updateAccuracyCA s) ca).Correct ≤ (l.foldl (updateAccuracyCA s) ca).Attempts := by
  intro l
  induction l with
  | nil => intro ca h0 h1; exact ⟨h0, h1⟩
  | cons b rest ih =>
    intro ca h0 h1
    refine ih (updateAccuracyCA s ca b) ?_ ?_
    · rw [updateAccuracyCA_correct]; cases b <;> simp <;> omega
    · rw [updateAccuracyCA_correct, updateAccuracyCA_attempts]; cases b <;> simp <;> omega

/-- C9: every stat reachable from the freshly seeded stat by a sequence of
recorded attempts satisfies `0 ≤ Correct ≤ Attempts`, and one recorded
attempt raises `Attempts` by exactly 1 and raises `Correct` by exactly 1 iff
the attempt succeeded. -/
theorem c9_theorem : ∀ (s : GameSettings) (l : List Bool) (ca : CharacterAccuracy) (b : Bool),
    (0 ≤ (applyAttempts s l).Correct ∧
      (applyAttempts s l).Correct ≤ (applyAttempts s l).Attempts) ∧
    (updateAccuracyCA s ca b).Attempts = ca.Attempts + 1 ∧
    (updateAccuracyCA s ca b).Correct = ca.Correct + (if b then 1 else 0) := by
  intro s l ca b
  refine ⟨?_, updateAccuracyCA_attempts s ca b, updateAccuracyCA_correct s ca b⟩
  exact foldl_updateAccuracyCA_inv s l seedCA (by simp [seedCA, zeroCA]) (by simp [seedCA, zeroCA])

theorem gameInputHandler_escape_stops (s : GameSettings) (now : Int) (st : AppState) :
    (gameInputHandler s now escapeEvent st).stopped = true := by
  simp only [gameInputHandler, escapeEvent]
  split_ifs <;> simp

/-- C8 (amended): when the corpus read fails during lesson regeneration (the
enter branch of the end-screen handler), the operation neither crashes nor
propagates the error: `ShowErrorScreen` runs (the branch then repaints the
stale lesson text over it), and `newGame` installs the end-screen handler,
but the enter branch's unconditional final channel send supersedes it, so
the machine ends in the Active (game) handler over the stale previous
lesson text; the user can still quit from there with the quit signal. -/
theorem c8_theorem : ∀ (s : GameSettings) (st : AppState) (e : String) (now now2 : Int)
    (wr : Except String (List (List Nat))),
    st.handler = HandlerKind.endScreen →
    (stepMachine s now (Except.error e) enterEvent st).errorScreenShown = true ∧
    (newGame s st (Except.error e)).handler = HandlerKind.endScreen ∧
    (stepMachine s now (Except.error e) enterEvent st).handler = HandlerKind.game ∧
    (stepMachine s now2 wr escapeEvent
      (stepMachine s now (Except.error e) enterEvent st)).stopped = true := by
  intro s st e now now2 wr hh
  have h1 : stepMachine s now (Except.error e) enterEvent st
      = { newGame s st (Except.error e) with handler := HandlerKind.game } := by
    simp [stepMachine, hh, endScreenInputHandler, enterEvent]
  refine ⟨?_, rfl, ?_, ?_⟩
  · rw [h1]
    show (newGame s st (Except.error e)).errorScreenShown = true
    rfl
  · rw [h1]
  · rw [h1]
    exact gameInputHandler_escape_stops s now2 _

/-- C8 witness: the amended statement applied to a concrete end-screen state
over the stale one-character lesson text and a concrete read error. -/
theorem c8_witness :
    ({ freshSession [97] with handler := HandlerKind.endScreen } : AppState).handler
        = HandlerKind.endScreen ∧
    ((stepMachine defaultSettings 0 (Except.error (default : String)) enterEvent
        { freshSession [97] with handler := HandlerKind.endScreen }).errorScreenShown = true ∧
      (newGame defaultSettings { freshSession [97] with handler := HandlerKind.endScreen }
        (Except.error (default : String))).handler = HandlerKind.endScreen ∧
      (stepMachine defaultSettings 0 (Except.error (default : String)) enterEvent
        { freshSession [97] with handler := HandlerKind.endScreen }).handler
          = HandlerKind.game ∧
      (stepMachine defaultSettings 0 (Except.ok []) escapeEvent
        (stepMachine defaultSettings 0 (Except.error (default : String)) enterEvent
          { freshSession [97] with handler := HandlerKind.endScreen })).stopped = true) := by
  exact ⟨rfl, c8_theorem defaultSettings
    { freshSession [97] with handler := HandlerKind.endScreen }
    (default : String) 0 0 (Except.ok []) rfl⟩

/-- C8 counterexample: from a concrete end-screen state, pressing enter while
the corpus read fails leaves the installed handler equal to the game
handler, not the end-screen handler: the claimed transition to `EndScreen`
on failed regeneration does not happen (the enter branch's final channel
send supersedes the one from `newGame`'s error path). -/
theorem c8_counterexample :
    (stepMachine defaultSettings 0 (Except.error (default : String)) enterEvent
      { freshSession [97] with handler := HandlerKind.endScreen }).handler
        = HandlerKind.game ∧
    HandlerKind.game ≠ HandlerKind.endScreen := by
  exact ⟨rfl, by decide⟩

theorem gpcLoop_spec :
    ∀ (accs : List (Nat × CharacterAccuracy)) (least : ℚ) (pc : Nat),
      (gpcLoop accs least pc = pc ∧
        ∀ p ∈ accs, p.1 ≠ runeSpace → least ≤ p.2.Score) ∨
      (∃ q ∈ accs, q.1 ≠ runeSpace ∧ gpcLoop accs least pc = q.1 ∧ q.2.Score < least ∧
        ∀ p ∈ accs, p.1 ≠ runeSpace → q.2.Score ≤ p.2.Score) := by
  intro accs
  induction accs with
  | nil => intro least pc; exact Or.inl ⟨rfl, by simp⟩
  | cons hd rest ih =>
    intro least pc
    obtain ⟨c, ca⟩ := hd
    by_cases hsp : c = runeSpace
    · rw [gpcLoop, if_pos hsp]
      rcases ih least pc with ⟨heq, hall⟩ | ⟨q, hq, hqs, hqe, hqlt, hqmin⟩
      · exact Or.inl ⟨heq, by
          intro p hp hps
          rcases List.mem_cons.mp hp with h1 | h2
          · rw [h1] at hps; exact absurd hsp hps
          · exact hall p h2 hps⟩
      · exact Or.inr ⟨q, List.mem_cons_of_mem _ hq, hqs, hqe, hqlt, by
          intro p hp hps
          rcases List.mem_cons.mp hp with h1 | h2
          · rw [h1] at hps; exact absurd hsp hps
          · exact hqmin p h2 hps⟩
    · by_cases hlt : ca.Score < least
      · rw [gpcLoop, if_neg hsp, if_pos hlt]
        rcases ih ca.Score c with ⟨heq, hall⟩ | ⟨q, hq, hqs, hqe, hqlt, hqmin⟩
        · refine Or.inr ⟨(c, ca), List.mem_cons_self _ _, hsp, heq, hlt, ?_⟩
          intro p hp hps
          rcases List.mem_cons.mp hp with h1 | h2
          · rw [h1]
          · exact hall p h2 hps
        · refine Or.inr ⟨q, List.mem_cons_of_mem _ hq, hqs, hqe, lt_trans hqlt hlt, ?_⟩
          intro p hp hps
          rcases List.mem_cons.mp hp with h1 | h2
          · rw [h1]; exact le_of_lt hqlt
          · exact hqmin p h2 hps
      · rw [gpcLoop, if_neg hsp, if_neg hlt]
        push_neg at hlt
        rcases ih least pc with ⟨heq, hall⟩ | ⟨q, hq, hqs, hqe, hqlt, hqmin⟩
        · refine Or.inl ⟨heq, ?_⟩
          intro p hp hps
          rcases List.mem_cons.mp hp with h1 | h2
          · rw [h1]; exact hlt
          · exact hall p h2 hps
        · refine Or.inr ⟨q, List.mem_cons_of_mem _ hq, hqs, hqe, hqlt, ?_⟩
          intro p hp hps
          rcases List.mem_cons.mp hp with h1 | h2
          · rw [h1]; exact le_of_lt (lt_of_lt_of_le hqlt hlt)
          · exact hqmin p h2 hps

/-- C3 (amended): for non-empty `currentChars`, the selector returns
`currentChars[0]` when no non-space entry of the stats map has score below
`1.0`, and otherwise returns the character of a non-space stats entry whose
score is minimal over all non-space stats entries (the map is scanned in
iteration order with a strict comparison, so the first minimiser wins);
membership of the result in `currentChars` is not guaranteed. -/
theorem c3_theorem : ∀ (currentChars : List Nat) (accs : List (Nat × CharacterAccuracy)),
    currentChars ≠ [] →
    ((∀ p ∈ accs, p.1 ≠ runeSpace → ¬ p.2.Score < 1) →
      getPriorityCharacter currentChars accs = currentChars.headD 0) ∧
    (∀ p0 ∈ accs, p0.1 ≠ runeSpace → p0.2.Score < 1 →
      ∃ q ∈ accs, q.1 ≠ runeSpace ∧ getPriorityCharacter currentChars accs = q.1 ∧
        q.2.Score < 1 ∧ ∀ p ∈ accs, p.1 ≠ runeSpace → q.2.Score ≤ p.2.Score) := by
  intro currentChars accs _
  constructor
  · intro hnone
    rcases gpcLoop_spec accs 1 (currentChars.headD 0) with ⟨heq, _⟩ | ⟨q, hq, hqs, _, hqlt, _⟩
    · exact heq
    · exact absurd hqlt (hnone q hq hqs)
  · intro p0 hp0 hp0s hp0lt
    rcases gpcLoop_spec accs 1 (currentChars.headD 0) with ⟨_, hall⟩ | ⟨q, hq, hqs, hqe, hqlt, hqmin⟩
    · exact absurd hp0lt (not_lt.mpr (hall p0 hp0 hp0s))
    · exact ⟨q, hq, hqs, hqe, hqlt, hqmin⟩

/-- C3 witness: the amended statement applied at a one-character subset and a
one-entry stats map. -/
theorem c3_witness :
    (([97] : List Nat) ≠ []) ∧
    ((∀ p ∈ ([(98, { zeroCA with Score := 1/2 })] : List (Nat × CharacterAccuracy)),
        p.1 ≠ runeSpace → ¬ p.2.Score < 1) →
      getPriorityCharacter [97] [(98, { zeroCA with Score := 1/2 })] = ([97] : List Nat).headD 0) ∧
    (∀ p0 ∈ ([(98, { zeroCA with Score := 1/2 })] : List (Nat × CharacterAccuracy)),
      p0.1 ≠ runeSpace → p0.2.Score < 1 →
      ∃ q ∈ ([(98, { zeroCA with Score := 1/2 })] : List (Nat × CharacterAccuracy)),
        q.1 ≠ runeSpace ∧ getPriorityCharacter [97] [(98, { zeroCA with Score := 1/2 })] = q.1 ∧
        q.2.Score < 1 ∧
        ∀ p ∈ ([(98, { zeroCA with Score := 1/2 })] : List (Nat × CharacterAccuracy)),
          p.1 ≠ runeSpace → q.2.Score ≤ p.2.Score) := by
  have h := c3_theorem [97] [(98, { zeroCA with Score := 1/2 })] (by decide)
  exact ⟨by decide, h.1, h.2⟩

/-- C3 counterexample: with `currentChars = ['a']` and a stats map holding a
better-scoring entry for `'b'`, the selector returns `'b'`, which is not a
member of `currentChars` — refuting the claim that the result is always a
member of `currentChars` with minimal score among `currentChars`. -/
theorem c3_counterexample :
    getPriorityCharacter [97]
      [(97, { zeroCA with Score := 9/10 }), (98, { zeroCA with Score := 1/2 })] = 98 ∧
    (98 : Nat) ∉ ([97] : List Nat) := by
  constructor
  · norm_num [getPriorityCharacter, gpcLoop, runeSpace, zeroCA]
  · decide

theorem insertByCountDesc_perm (f : Nat → Nat) (c : Nat) :
    ∀ (l : List Nat), (insertByCountDesc f c l).Perm (c :: l) := by
  intro l
  induction l with
  | nil => simp [insertByCountDesc]
  | cons d rest ih =>
    rw [insertByCountDesc]
    by_cases h : f c < f d
    · rw [if_pos h]
      exact ((ih.cons d).trans (List.Perm.swap c d rest))
    · rw [if_neg h]

theorem sortByCountDesc_perm (f : Nat → Nat) :
    ∀ (l : List Nat), (sortByCountDesc f l).Perm l := by
  intro l
  induction l with
  | nil => simp [sortByCountDesc]
  | cons c rest ih =>
    exact (insertByCountDesc_perm f c (sortByCountDesc f rest)).trans (ih.cons c)

theorem insertByCountDesc_sorted (f : Nat → Nat) (c : Nat) :
    ∀ (l : List Nat), l.Pairwise (fun a b => f b ≤ f a) →
      (insertByCountDesc f c l).Pairwise (fun a b => f b ≤ f a) := by
  intro l
  induction l with
  | nil => intro _; simp [insertByCountDesc]
  | cons d rest ih =>
    intro hs
    rw [List.pairwise_cons] at hs
    rw [insertByCountDesc]
    by_cases h : f c < f d
    · rw [if_pos h]
      rw [List.pairwise_cons]
      refine ⟨?_, ih hs.2⟩
      intro x hx
      have hx2 := (insertByCountDesc_perm f c rest).mem_iff.mp hx
      rcases List.mem_cons.mp hx2 with h1 | h2
      · rw [h1]; exact le_of_lt h
      · exact hs.1 x h2
    · rw [if_neg h]
      push_neg at h
      rw [List.pairwise_cons]
      refine ⟨?_, List.pairwise_cons.mpr hs⟩
      intro x hx
      rcases List.mem_cons.mp hx with h1 | h2
      · rw [h1]; exact h
      · exact le_trans (hs.1 x h2) h

theorem sortByCountDesc_sorted (f : Nat → Nat) :
    ∀ (l : List Nat), (sortByCountDesc f l).Pairwise (fun a b => f b ≤ f a) := by
  intro l
  induction l with
  | nil => simp [sortByCountDesc]
  | cons c rest ih => exact insertByCountDesc_sorted f c _ ih

/-- C6 (amended): for every corpus, and every map iteration order (a
permutation of the key set), the analyzer's output is a permutation of the
corpus's distinct case-folded characters, ordered by non-increasing
occurrence count; the order among characters with equal counts depends on
the randomised map iteration order and the unstable sort, not on first-seen
scan order. -/
theorem c6_theorem : ∀ (corpus : List (List Nat)) (order : List Nat),
    order.Perm (firstSeenKeys corpus) →
    (GetCharacterPriority corpus order).Perm (firstSeenKeys corpus) ∧
    (GetCharacterPriority corpus order).Pairwise
      (fun a b => countOccurrences corpus b ≤ countOccurrences corpus a) := by
  intro corpus order hperm
  constructor
  · exact (sortByCountDesc_perm _ order).trans hperm
  · exact sortByCountDesc_sorted _ order

/-- C6 witness: the amended statement applied to the corpus `["ab"]` with
the first-seen iteration order. -/
theorem c6_witness :
    (([97, 98] : List Nat).Perm (firstSeenKeys [[97, 98]])) ∧
    (GetCharacterPriority [[97, 98]] [97, 98]).Perm (firstSeenKeys [[97, 98]]) ∧
    (GetCharacterPriority [[97, 98]] [97, 98]).Pairwise
      (fun a b => countOccurrences [[97, 98]] b ≤ countOccurrences [[97, 98]] a) := by
  have h := c6_theorem [[97, 98]] [97, 98] (by decide)
  exact ⟨by decide, h.1, h.2⟩

/-- C6 counterexample: on the corpus `["ab"]`, whose characters tie at one
occurrence each, the legitimate map iteration order `['b','a']` makes the
analyzer return `['b','a']`, not the first-seen order `['a','b']` the claim
requires. -/
theorem c6_counterexample :
    ([98, 97] : List Nat).Perm (firstSeenKeys [[97, 98]]) ∧
    GetCharacterPriority [[97, 98]] [98, 97] = [98, 97] ∧
    specCharacterPriority [[97, 98]] = [97, 98] ∧
    GetCharacterPriority [[97, 98]] [98, 97] ≠ specCharacterPriority [[97, 98]] := by
  refine ⟨by decide, by decide, by decide, by decide⟩

theorem step_correct_end (s : GameSettings) (st : AppState)
    (hh : st.handler = HandlerKind.game)
    (hend : st.Words.length - 1 ≤ st.CurrentCharIndex + 1) :
    (stepMachine s 0 (Except.ok []) (charEvent (st.Words.getD st.CurrentCharIndex 0)) st).handler
        = HandlerKind.endScreen ∧
    (stepMachine s 0 (Except.ok []) (charEvent (st.Words.getD st.CurrentCharIndex 0)) st).Correct
        = st.Correct + 1 ∧
    (stepMachine s 0 (Except.ok []) (charEvent (st.Words.getD st.CurrentCharIndex 0)) st).Incorrect
        = st.Incorrect ∧
    (stepMachine s 0 (Except.ok []) (charEvent (st.Words.getD st.CurrentCharIndex 0)) st).endScreenShown
        = true ∧
    (stepMachine s 0 (Except.ok []) (charEvent (st.Words.getD st.CurrentCharIndex 0)) st).endScreenAccuracy
        = showEndScreenAccuracy ((st.Correct + 1 : Nat) : ℚ) (st.Incorrect : ℚ) := by
  by_cases hstart : st.Started <;>
    simp [stepMachine, hh, gameInputHandler, charEvent, hend, hstart]

theorem step_correct_cont (s : GameSettings) (st : AppState)
    (hh : st.handler = HandlerKind.game)
    (hcont : ¬ st.Words.length - 1 ≤ st.CurrentCharIndex + 1) :
    (stepMachine s 0 (Except.ok []) (charEvent (st.Words.getD st.CurrentCharIndex 0)) st).handler
        = HandlerKind.game ∧
    (stepMachine s 0 (Except.ok []) (charEvent (st.Words.getD st.CurrentCharIndex 0)) st).Correct
        = st.Correct + 1 ∧
    (stepMachine s 0 (Except.ok []) (charEvent (st.Words.getD st.CurrentCharIndex 0)) st).Incorrect
        = st.Incorrect ∧
    (stepMachine s 0 (Except.ok []) (charEvent (st.Words.getD st.CurrentCharIndex 0)) st).CurrentCharIndex
        = st.CurrentCharIndex + 1 ∧
    (stepMachine s 0 (Except.ok []) (charEvent (st.Words.getD st.CurrentCharIndex 0)) st).Words
        = st.Words := by
  by_cases hstart : st.Started <;>
    simp [stepMachine, hh, gameInputHandler, charEvent, hcont, hstart]

theorem feedCorrect_run (s : GameSettings) :
    ∀ (n : Nat) (st : AppState),
      st.handler = HandlerKind.game →
      st.Incorrect = 0 →
      st.Correct = st.CurrentCharIndex →
      st.Words.length = st.CurrentCharIndex + n + 1 →
      1 ≤ n →
      (feedCorrect s n st).handler = HandlerKind.endScreen ∧
      (feedCorrect s n st).Correct = st.CurrentCharIndex + n ∧
      (feedCorrect s n st).Incorrect = 0 ∧
      (feedCorrect s n st).endScreenShown = true ∧
      (feedCorrect s n st).endScreenAccuracy
        = showEndScreenAccuracy ((st.CurrentCharIndex + n : Nat) : ℚ) 0 := by
  intro n
  induction n with
  | zero => intro st _ _ _ _ h; exact absurd h (by omega)
  | succ m ih =>
    intro st hh hi hc hl _
    by_cases hm : m = 0
    · subst hm
      have hend : st.Words.length - 1 ≤ st.CurrentCharIndex + 1 := by omega
      obtain ⟨e1, e2, e3, e4, e5⟩ := step_correct_end s st hh hend
      rw [feedCorrect, feedCorrect]
      rw [e5, e2, e3, e4, hc, hi]
      exact ⟨e1, rfl, rfl, rfl, by norm_num⟩
    · have hcont : ¬ st.Words.length - 1 ≤ st.CurrentCharIndex + 1 := by omega
      obtain ⟨f1, f2, f3, f4, f5⟩ := step_correct_cont s st hh hcont
      rw [feedCorrect]
      have hrec := ih
        (stepMachine s 0 (Except.ok []) (charEvent (st.Words.getD st.CurrentCharIndex 0)) st)
        f1 (by rw [f3, hi]) (by rw [f2, f4, hc]) (by rw [f5, f4]; omega) (by omega)
      have hidx : (stepMachine s 0 (Except.ok [])
          (charEvent (st.Words.getD st.CurrentCharIndex 0)) st).CurrentCharIndex + m
          = st.CurrentCharIndex + (m + 1) := by rw [f4]; omega
      rw [hidx] at hrec
      exact hrec

/-- C7 (amended): starting a fresh session over any lesson text of at least
two characters and typing the expected character at every cursor position
reaches the end screen with `correctCount = len(text) - 1` and
`incorrectCount = 0`, and the end-screen accuracy readout is exactly 100. -/
theorem c7_theorem : ∀ (s : GameSettings) (w : List Nat), 2 ≤ w.length →
    (feedCorrect s (w.length - 1) (freshSession w)).handler = HandlerKind.endScreen ∧
    (feedCorrect s (w.length - 1) (freshSession w)).Correct = w.length - 1 ∧
    (feedCorrect s (w.length - 1) (freshSession w)).Incorrect = 0 ∧
    (feedCorrect s (w.length - 1) (freshSession w)).endScreenShown = true ∧
    (feedCorrect s (w.length - 1) (freshSession w)).endScreenAccuracy = 100 := by
  intro s w hw
  have h := feedCorrect_run s (w.length - 1) (freshSession w) rfl rfl rfl
    (by show w.length = 0 + (w.length - 1) + 1; omega) (by omega)
  have hidx : (freshSession w).CurrentCharIndex = 0 := rfl
  rw [hidx] at h
  simp only [Nat.zero_add] at h
  refine ⟨h.1, h.2.1, h.2.2.1, h.2.2.2.1, ?_⟩
  rw [h.2.2.2.2]
  have hne : ((w.length - 1 : Nat) : ℚ) ≠ 0 := Nat.cast_ne_zero.mpr (by omega)
  rw [showEndScreenAccuracy, add_zero, mul_comm]
  exact mul_div_cancel_right₀ 100 hne

/-- C7 witness: the amended statement applied to the three-character lesson
text `"abc"`. -/
theorem c7_witness :
    (2 ≤ ([97, 98, 99] : List Nat).length) ∧
    ((feedCorrect defaultSettings (([97, 98, 99] : List Nat).length - 1)
        (freshSession [97, 98, 99])).handler = HandlerKind.endScreen ∧
      (feedCorrect defaultSettings (([97, 98, 99] : List Nat).length - 1)
        (freshSession [97, 98, 99])).Correct = ([97, 98, 99] : List Nat).length - 1 ∧
      (feedCorrect defaultSettings (([97, 98, 99] : List Nat).length - 1)
        (freshSession [97, 98, 99])).Incorrect = 0 ∧
      (feedCorrect defaultSettings (([97, 98, 99] : List Nat).length - 1)
        (freshSession [97, 98, 99])).endScreenShown = true ∧
      (feedCorrect defaultSettings (([97, 98, 99] : List Nat).length - 1)
        (freshSession [97, 98, 99])).endScreenAccuracy = 100) := by
  exact ⟨by decide, c7_theorem defaultSettings [97, 98, 99] (by decide)⟩

/-- C7 counterexample: on the one-character lesson text `"x"` (non-empty),
typing the expected character reaches the end screen with `correctCount = 1`,
but `len(text) - 1 = 0`, refuting the claim as stated for every non-empty
text. -/
theorem c7_counterexample :
    (stepMachine defaultSettings 0 (Except.ok []) (charEvent 120)
      (freshSession [120])).handler = HandlerKind.endScreen ∧
    (stepMachine defaultSettings 0 (Except.ok []) (charEvent 120)
      (freshSession [120])).Correct = 1 ∧
    ([120] : List Nat).length - 1 = 0 ∧
    (stepMachine defaultSettings 0 (Except.ok []) (charEvent 120)
      (freshSession [120])).Correct ≠ ([120] : List Nat).length - 1 := by
  refine ⟨by decide, by decide, by decide, by decide⟩

theorem bumpUsage_eq (used : Nat → Nat) (x c : Nat) :
    bumpUsage used x c = used c + (if c = x then 1 else 0) := by
  by_cases h : c = x
  · subst h; simp [bumpUsage]
  · simp [bumpUsage, h]

theorem count_append_singleton (w : List Nat) (x c : Nat) :
    (w ++ [x]).count c = w.count c + (if c = x then 1 else 0) := by
  rw [List.count_append]
  by_cases h : c = x
  · subst h; simp
  · simp [List.count_singleton, h]

theorem grc_spec (chars : List Nat) (used : Nat → Nat) (maxUsage exclude : Nat)
    (rng : List Nat) :
    ((getRandomCharacter chars used maxUsage exclude rng).1 = runeSpace ∧
      ∀ c ∈ chars, c = exclude ∨ maxUsage ≤ used c) ∨
    ((getRandomCharacter chars used maxUsage exclude rng).1 ∈ chars ∧
      (getRandomCharacter chars used maxUsage exclude rng).1 ≠ exclude ∧
      used (getRandomCharacter chars used maxUsage exclude rng).1 < maxUsage) := by
  rw [getRandomCharacter]
  by_cases h : 0 < (chars.filter
      (fun c => decide (c ≠ exclude) && decide (used c < maxUsage))).length
  · rw [if_pos h]
    have hlt : rng.headD 0 % (chars.filter
        (fun c => decide (c ≠ exclude) && decide (used c < maxUsage))).length <
        (chars.filter (fun c => decide (c ≠ exclude) && decide (used c < maxUsage))).length :=
      Nat.mod_lt _ h
    have hmem := List.getD_eq_getElem _ runeSpace hlt ▸ List.getElem_mem hlt
    have hprops := List.mem_filter.mp hmem
    simp only [Bool.and_eq_true, decide_eq_true_eq] at hprops
    exact Or.inr ⟨hprops.1, hprops.2.1, hprops.2.2⟩
  · rw [if_neg h]
    have hnil : chars.filter (fun c => decide (c ≠ exclude) && decide (used c < maxUsage)) = [] :=
      List.length_eq_zero.mp (by omega)
    refine Or.inl ⟨rfl, ?_⟩
    intro c hc
    have h3 := List.filter_eq_nil_iff.mp hnil c hc
    simp only [Bool.and_eq_true, decide_eq_true_eq, not_and, not_lt] at h3
    by_cases hce : c = exclude
    · exact Or.inl hce
    · exact Or.inr (h3 hce)

theorem grc_break (chars : List Nat) (used : Nat → Nat) (maxUsage exclude : Nat)
    (rng : List Nat) (hsp : runeSpace ∉ chars)
    (hbk : (getRandomCharacter chars used maxUsage exclude rng).1 = runeSpace) :
    ∀ c ∈ chars, c = exclude ∨ maxUsage ≤ used c := by
  rcases grc_spec chars used maxUsage exclude rng with ⟨_, hall⟩ | ⟨hmem, _, _⟩
  · exact hall
  · rw [hbk] at hmem
    exact absurd hmem hsp

theorem genLoop_length_le (chars : List Nat) (priority pp maxUsage : Nat) :
    ∀ (n i : Nat) (word : List Nat) (used : Nat → Nat) (prev cia : Nat) (rng : List Nat),
      (genLoop chars priority pp maxUsage n i word used prev cia rng).1.length
        ≤ word.length + n := by
  intro n
  induction n with
  | zero => intro i word used prev cia rng; simp [genLoop]
  | succ m ih =>
    intro i word used prev cia rng
    rw [genLoop]
    by_cases hpl : i = pp ∧ prev ≠ priority
    · rw [if_pos hpl]
      have := ih (i + 1) (word ++ [priority]) (bumpUsage used priority) prev cia rng
      simp only [List.length_append, List.length_cons, List.length_nil] at this ⊢
      omega
    · rw [if_neg hpl]
      simp only []
      by_cases hbk : (getRandomCharacter chars used maxUsage (if cia = 2 then prev else 0) rng).1
          = runeSpace
      · rw [if_pos hbk]
        simp only [List.length_append]
        omega
      · rw [if_neg hbk]
        have := ih (i + 1) (word ++ [(getRandomCharacter chars used maxUsage
          (if cia = 2 then prev else 0) rng).1]) (bumpUsage used (getRandomCharacter chars used
          maxUsage (if cia = 2 then prev else 0) rng).1) (getRandomCharacter chars used maxUsage
          (if cia = 2 then prev else 0) rng).1 (if (getRandomCharacter chars used maxUsage
          (if cia = 2 then prev else 0) rng).1 = prev then cia + 1 else 1) (getRandomCharacter
          chars used maxUsage (if cia = 2 then prev else 0) rng).2
        simp only [List.length_append, List.length_cons, List.length_nil] at this ⊢
        omega

theorem genLoop_subset (chars : List Nat) (priority pp maxUsage : Nat) :
    ∀ (n i : Nat) (word : List Nat) (used : Nat → Nat) (prev cia : Nat) (rng : List Nat),
      (∀ c ∈ word, c ∈ chars ∨ c = priority) →
      ∀ c ∈ (genLoop chars priority pp maxUsage n i word used prev cia rng).1,
        c ∈ chars ∨ c = priority := by
  intro n
  induction n with
  | zero => intro i word used prev cia rng hw; simpa [genLoop] using hw
  | succ m ih =>
    intro i word used prev cia rng hw
    rw [genLoop]
    by_cases hpl : i = pp ∧ prev ≠ priority
    · rw [if_pos hpl]
      refine ih (i + 1) _ _ prev cia rng ?_
      intro c hc
      rcases List.mem_append.mp hc with h1 | h2
      · exact hw c h1
      · exact Or.inr (List.mem_singleton.mp h2)
    · rw [if_neg hpl]
      simp only []
      rcases hpick : getRandomCharacter chars used maxUsage (if cia = 2 then prev else 0) rng
        with ⟨c0, rng2⟩
      by_cases hbk : c0 = runeSpace
      · rw [if_pos hbk]
        exact hw
      · rw [if_neg hbk]
        refine ih (i + 1) _ _ c0 _ rng2 ?_
        intro c hc
        rcases List.mem_append.mp hc with h1 | h2
        · exact hw c h1
        · rcases grc_spec chars used maxUsage (if cia = 2 then prev else 0) rng with
            ⟨hsp, _⟩ | ⟨hmem, _, _⟩
          · rw [hpick] at hsp; exact absurd hsp hbk
          · rw [hpick] at hmem
            rw [List.mem_singleton.mp h2]
            exact Or.inl hmem

theorem genLoop_count (chars : List Nat) (priority pp maxUsage : Nat) :
    ∀ (n i : Nat) (word : List Nat) (used : Nat → Nat) (prev cia : Nat) (rng : List Nat),
      (∀ c, used c = word.count c) →
      (∀ c, c ≠ priority → word.count c ≤ maxUsage) →
      word.count priority ≤ maxUsage + (if pp < i then 1 else 0) →
      (∀ c, c ≠ priority →
        (genLoop chars priority pp maxUsage n i word used prev cia rng).1.count c ≤ maxUsage) ∧
      (genLoop chars priority pp maxUsage n i word used prev cia rng).1.count priority
        ≤ maxUsage + 1 := by
  intro n
  induction n with
  | zero =>
    intro i word used prev cia rng _ h2 h3
    simp only [genLoop]
    refine ⟨h2, ?_⟩
    by_cases h : pp < i <;> simp [h] at h3 <;> omega
  | succ m ih =>
    intro i word used prev cia rng h1 h2 h3
    rw [genLoop]
    by_cases hpl : i = pp ∧ prev ≠ priority
    · rw [if_pos hpl]
      refine ih (i + 1) _ _ prev cia rng ?_ ?_ ?_
      · intro c
        rw [bumpUsage_eq, count_append_singleton, h1]
      · intro c hc
        rw [count_append_singleton]
        have := h2 c hc
        simp [hc]
        omega
      · rw [count_append_singleton]
        have hppi : ¬ pp < i := by omega
        simp [hppi] at h3
        have hlt : pp < i + 1 := by omega
        simp [hlt]
        omega
    · rw [if_neg hpl]
      simp only []
      rcases hpick : getRandomCharacter chars used maxUsage (if cia = 2 then prev else 0) rng
        with ⟨c0, rng2⟩
      by_cases hbk : c0 = runeSpace
      · rw [if_pos hbk]
        show (∀ c, c ≠ priority → word.count c ≤ maxUsage) ∧
          word.count priority ≤ maxUsage + 1
        refine ⟨h2, ?_⟩
        by_cases h : pp < i <;> simp [h] at h3 <;> omega
      · rw [if_neg hbk]
        have hc0 : used c0 < maxUsage := by
          rcases grc_spec chars used maxUsage (if cia = 2 then prev else 0) rng with
            ⟨hsp, _⟩ | ⟨_, _, hlt⟩
          · rw [hpick] at hsp; exact absurd hsp hbk
          · rw [hpick] at hlt; exact hlt
        rw [h1] at hc0
        refine ih (i + 1) _ _ c0 _ rng2 ?_ ?_ ?_
        · intro c
          rw [bumpUsage_eq, count_append_singleton, h1]
        · intro c hc
          rw [count_append_singleton]
          have := h2 c hc
          by_cases hcc : c = c0
          · subst hcc; simp; omega
          · simp [hcc]; omega
        · rw [count_append_singleton]
          by_cases hpc : priority = c0
          · subst hpc
            simp
            by_cases hlt : pp < i + 1 <;> simp [hlt] <;> omega
          · simp [hpc]
            by_cases hi : pp < i
            · have : pp < i + 1 := by omega
              simp [hi] at h3
              simp [this]
              omega
            · simp [hi] at h3
              by_cases hlt : pp < i + 1 <;> simp [hlt] <;> omega

theorem genLoop_contains (chars : List Nat) (priority pp maxUsage : Nat)
    (hpc : priority ∈ chars) (hpz : priority ≠ 0) (hmu : 1 ≤ maxUsage)
    (hsp : runeSpace ∉ chars) :
    ∀ (n i : Nat) (word : List Nat) (used : Nat → Nat) (prev cia : Nat) (rng : List Nat),
      (∀ c, used c = word.count c) →
      (prev ≠ 0 → prev ∈ word) →
      ((i ≤ pp ∧ pp < i + n) ∨ priority ∈ word) →
      priority ∈ (genLoop chars priority pp maxUsage n i word used prev cia rng).1 := by
  intro n
  induction n with
  | zero =>
    intro i word used prev cia rng _ _ h7
    rcases h7 with ⟨h71, h72⟩ | h7r
    · omega
    · simpa [genLoop] using h7r
  | succ m ih =>
    intro i word used prev cia rng h1 h2 h7
    rw [genLoop]
    by_cases hpl : i = pp ∧ prev ≠ priority
    · rw [if_pos hpl]
      refine ih (i + 1) _ _ prev cia rng ?_ ?_ ?_
      · intro c
        rw [bumpUsage_eq, count_append_singleton, h1]
      · intro hp
        exact List.mem_append.mpr (Or.inl (h2 hp))
      · exact Or.inr (List.mem_append.mpr (Or.inr (List.mem_singleton.mpr rfl)))
    · rw [if_neg hpl]
      simp only []
      rcases hpick : getRandomCharacter chars used maxUsage (if cia = 2 then prev else 0) rng
        with ⟨c0, rng2⟩
      by_cases hbk : c0 = runeSpace
      · rw [if_pos hbk]
        show priority ∈ word
        rcases h7 with ⟨h71, h72⟩ | h7r
        · have hall := grc_break chars used maxUsage (if cia = 2 then prev else 0) rng hsp
            (by rw [hpick]; exact hbk)
          rcases hall priority hpc with hex | hus
          · by_cases hcia : cia = 2
            · rw [if_pos hcia] at hex
              have hprev0 : prev ≠ 0 := by
                intro h0
                rw [h0] at hex
                exact hpz hex
              rw [hex]
              exact h2 hprev0
            · rw [if_neg hcia] at hex
              exact absurd hex hpz
          · have := h1 priority
            have hcount : 0 < word.count priority := by omega
            exact List.count_pos_iff.mp hcount
        · exact h7r
      · rw [if_neg hbk]
        refine ih (i + 1) _ _ c0 _ rng2 ?_ ?_ ?_
        · intro c
          rw [bumpUsage_eq, count_append_singleton, h1]
        · intro _
          exact List.mem_append.mpr (Or.inr (List.mem_singleton.mpr rfl))
        · rcases h7 with ⟨h71, h72⟩ | h7r
          · by_cases hip : i = pp
            · have hprev : prev = priority := by
                by_contra hne
                exact hpl ⟨hip, hne⟩
              refine Or.inr (List.mem_append.mpr (Or.inl ?_))
              rw [← hprev]
              exact h2 (by rw [hprev]; exact hpz)
            · exact Or.inl ⟨by omega, by omega⟩
          · exact Or.inr (List.mem_append.mpr (Or.inl h7r))

theorem wordTargetLength_pos (minLength maxLength : Nat) (rng : List Nat)
    (h : 0 < minLength) : 0 < wordTargetLength minLength maxLength rng := by
  rw [wordTargetLength]
  omega

theorem wordTargetLength_lt (minLength maxLength : Nat) (rng : List Nat)
    (h : minLength < maxLength) : wordTargetLength minLength maxLength rng < maxLength := by
  rw [wordTargetLength]
  have := Nat.mod_lt (rng.headD 0) (y := maxLength - minLength) (by omega)
  omega

theorem generateWord_length_lt (chars : List Nat) (priority minLength maxLength : Nat)
    (rng : List Nat) (h : minLength < maxLength) :
    (GenerateWord chars priority minLength maxLength rng).1.length < maxLength := by
  rw [GenerateWord]
  have h1 := genLoop_length_le chars priority
    (rng.tail.headD 0 % wordTargetLength minLength maxLength rng)
    (wordTargetLength minLength maxLength rng / 2)
    (wordTargetLength minLength maxLength rng) 0 [] (fun _ => 0) 0 0 rng.tail.tail
  have h2 := wordTargetLength_lt minLength maxLength rng h
  simp only [List.length_nil] at h1
  omega

theorem generateWord_subset (chars : List Nat) (priority minLength maxLength : Nat)
    (rng : List Nat) (hpc : priority ∈ chars) :
    ∀ c ∈ (GenerateWord chars priority minLength maxLength rng).1, c ∈ chars := by
  intro c hc
  rw [GenerateWord] at hc
  rcases genLoop_subset chars priority
      (rng.tail.headD 0 % wordTargetLength minLength maxLength rng)
      (wordTargetLength minLength maxLength rng / 2)
      (wordTargetLength minLength maxLength rng) 0 [] (fun _ => 0) 0 0 rng.tail.tail
      (by intro d hd; simp at hd) c hc with h1 | h2
  · exact h1
  · rw [h2]; exact hpc

theorem generateWord_count (chars : List Nat) (priority minLength maxLength : Nat)
    (rng : List Nat) :
    (∀ c, c ≠ priority → (GenerateWord chars priority minLength maxLength rng).1.count c
      ≤ wordTargetLength minLength maxLength rng / 2) ∧
    (GenerateWord chars priority minLength maxLength rng).1.count priority
      ≤ wordTargetLength minLength maxLength rng / 2 + 1 := by
  rw [GenerateWord]
  exact genLoop_count chars priority
    (rng.tail.headD 0 % wordTargetLength minLength maxLength rng)
    (wordTargetLength minLength maxLength rng / 2)
    (wordTargetLength minLength maxLength rng) 0 [] (fun _ => 0) 0 0 rng.tail.tail
    (by intro c; simp) (by intro c _; simp) (by simp)

theorem generateWord_contains (chars : List Nat) (priority minLength maxLength : Nat)
    (rng : List Nat) (hpc : priority ∈ chars) (hpz : priority ≠ 0)
    (hsp : runeSpace ∉ chars) (hmin : 0 < minLength) :
    priority ∈ (GenerateWord chars priority minLength maxLength rng).1 := by
  rw [GenerateWord]
  have hL : 0 < wordTargetLength minLength maxLength rng :=
    wordTargetLength_pos minLength maxLength rng hmin
  by_cases h1L : wordTargetLength minLength maxLength rng = 1
  · rw [h1L]
    simp only [Nat.mod_one]
    rw [genLoop, if_pos ⟨rfl, Ne.symm hpz⟩, genLoop]
    simp
  · have hmu : 1 ≤ wordTargetLength minLength maxLength rng / 2 := by omega
    exact genLoop_contains chars priority
      (rng.tail.headD 0 % wordTargetLength minLength maxLength rng)
      (wordTargetLength minLength maxLength rng / 2) hpc hpz hmu hsp
      (wordTargetLength minLength maxLength rng) 0 [] (fun _ => 0) 0 0 rng.tail.tail
      (by intro c; simp) (by intro h0; exact absurd rfl h0)
      (Or.inl ⟨Nat.zero_le _, by simpa using Nat.mod_lt (rng.tail.headD 0) hL⟩)

theorem rend_nil : rend [] = 0 := rfl

theorem rend_singleton (c : Nat) : rend [c] = 1 := rfl

theorem rend_pos (w : List Nat) (h : w ≠ []) : 1 ≤ rend w := by
  rw [rend]
  cases hw : w.reverse with
  | nil => exact absurd (by simpa using congrArg List.reverse hw) h
  | cons d t => rw [rendAux]; omega

theorem lastD_append (w : List Nat) (c : Nat) : lastD (w ++ [c]) = c := by
  rw [lastD, List.reverse_append]
  rfl

theorem rend_append (w : List Nat) (c : Nat) (h : w ≠ []) :
    rend (w ++ [c]) = if lastD w = c then rend w + 1 else 1 := by
  rw [rend, List.reverse_append]
  cases hw : w.reverse with
  | nil => exact absurd (by simpa using congrArg List.reverse hw) h
  | cons d t =>
    show rendAux (c :: d :: t) = if lastD w = c then rend w + 1 else 1
    have hlast : lastD w = d := by rw [lastD, hw]; rfl
    rw [rend, hw, hlast]
    by_cases hdc : d = c
    · subst hdc
      rw [if_pos rfl, rendAux, rendAux]
      rw [List.takeWhile_cons]
      simp
    · rw [if_neg (by omega), rendAux]
      rw [List.takeWhile_cons]
      simp [hdc]

theorem take_append_singleton (w : List Nat) (c : Nat) (m : Nat) :
    (w ++ [c]).take m = if m ≤ w.length then w.take m else w ++ [c] := by
  by_cases h : m ≤ w.length
  · rw [if_pos h, List.take_append_of_le_length h]
  · rw [if_neg h]
    exact List.take_of_length_le (by simp; omega)

theorem sync_to_post (word : List Nat) (prev cia : Nat) (h : SyncInv word prev cia) :
    PostInv word prev cia := by
  rcases h with ⟨hw, _, _⟩ | ⟨hw, hp, hc, hr⟩
  · subst hw
    exact ⟨by simp [rend_nil], by simp [rend_nil], by simp [rend_nil]⟩
  · exact ⟨by omega, fun _ => ⟨hp, by omega⟩, fun h3 => by omega⟩

theorem placement_step (word : List Nat) (prev cia priority : Nat)
    (hs : SyncInv word prev cia) (hne : prev ≠ priority) :
    rend (word ++ [priority]) = 1 ∧ PostInv (word ++ [priority]) prev cia := by
  have h1 : rend (word ++ [priority]) = 1 := by
    rcases hs with ⟨hw, _, _⟩ | ⟨hw, hp, _, _⟩
    · subst hw; exact rend_singleton priority
    · rw [rend_append word priority hw, if_neg (by rw [← hp]; exact hne)]
  exact ⟨h1, by rw [PostInv, h1]; exact ⟨by omega, by omega, by omega⟩⟩

theorem sync_pick_step (word : List Nat) (prev cia c0 : Nat)
    (hs : SyncInv word prev cia) (hcia : cia ≤ 2)
    (hne : c0 ≠ (if cia = 2 then prev else 0)) :
    SyncInv (word ++ [c0]) c0 (if c0 = prev then cia + 1 else 1) ∧
    rend (word ++ [c0]) ≤ 2 ∧ (if c0 = prev then cia + 1 else 1) ≤ 2 := by
  rcases hs with ⟨hw, hp, hc⟩ | ⟨hw, hp, hc, hr⟩
  · subst hw
    rw [if_neg (by rw [hp]; rw [if_neg (by omega)] at hne; exact hne)]
    refine ⟨Or.inr ⟨by simp, by rw [lastD_append],
        by rw [List.nil_append, rend_singleton],
        by norm_num [rend_singleton]⟩,
      by norm_num [rend_singleton], by omega⟩
  · by_cases hcp : c0 = prev
    · have hc2 : cia ≠ 2 := by
        intro h2
        rw [if_pos h2] at hne
        exact hne hcp
      have hr1 : rend word = 1 := by
        have := rend_pos word hw
        omega
      have hrw : rend (word ++ [c0]) = 2 := by
        rw [rend_append word c0 hw, if_pos (by rw [← hp]; exact hcp.symm), hr1]
      rw [if_pos hcp]
      refine ⟨Or.inr ⟨by simp, ?_, ?_, by omega⟩, by omega, by omega⟩
      · rw [lastD_append]
      · rw [hrw]; omega
    · have hrw : rend (word ++ [c0]) = 1 := by
        rw [rend_append word c0 hw, if_neg (by rw [← hp]; exact fun h => hcp h.symm)]
      rw [if_neg hcp]
      refine ⟨Or.inr ⟨by simp, ?_, ?_, by omega⟩, by omega, by omega⟩
      · rw [lastD_append]
      · rw [hrw]

theorem post_pick_step (word : List Nat) (prev cia c0 : Nat)
    (hs : PostInv word prev cia) (hcia : cia ≤ 2)
    (hne : c0 ≠ (if cia = 2 then prev else 0)) :
    PostInv (word ++ [c0]) c0 (if c0 = prev then cia + 1 else 1) ∧
    rend (word ++ [c0]) ≤ 3 ∧ (if c0 = prev then cia + 1 else 1) ≤ 2 := by
  obtain ⟨hr3, hr2, hr3c⟩ := hs
  have hcia2 : (if c0 = prev then cia + 1 else 1) ≤ 2 := by
    by_cases hcp : c0 = prev
    · have : cia ≠ 2 := by
        intro h2
        rw [if_pos h2] at hne
        exact hne hcp
      rw [if_pos hcp]
      omega
    · rw [if_neg hcp]
      omega
  by_cases hw : word = []
  · subst hw
    refine ⟨⟨?_, ?_, ?_⟩, ?_, hcia2⟩ <;> norm_num [rend_singleton]
  · by_cases hlc : lastD word = c0
    · have hrlt : rend word ≤ 2 := by
        by_contra hcon
        have h3 : rend word = 3 := by omega
        have hc2 := hr3c h3
        have hpl := (hr2 (by omega)).1
        rw [if_pos hc2] at hne
        rw [← hpl] at hlc
        exact hne hlc.symm
      have hrw : rend (word ++ [c0]) = rend word + 1 := by
        rw [rend_append word c0 hw, if_pos hlc]
      refine ⟨⟨by omega, ?_, ?_⟩, by omega, hcia2⟩
      · intro _
        exact ⟨(lastD_append word c0).symm, by by_cases hcp : c0 = prev <;> simp [hcp]⟩
      · intro h3w
        have hr2w : rend word = 2 := by omega
        have hpl := (hr2 (by omega)).1
        have hcp : c0 = prev := by rw [(hr2 (by omega)).1]; exact hlc.symm
        have hciane : cia ≠ 2 := by
          intro h2
          rw [if_pos h2] at hne
          exact hne hcp
        have hcge : 1 ≤ cia := (hr2 (by omega)).2
        rw [if_pos hcp]
        omega
    · have hrw : rend (word ++ [c0]) = 1 := by
        rw [rend_append word c0 hw, if_neg hlc]
      refine ⟨⟨by omega, by omega, by omega⟩, by omega, hcia2⟩

theorem prefixRun_append (word : List Nat) (c : Nat)
    (ha : ∀ m, rend (word.take m) ≤ 3) (hc : rend (word ++ [c]) ≤ 3) :
    ∀ m, rend ((word ++ [c]).take m) ≤ 3 := by
  intro m
  rw [take_append_singleton]
  by_cases h : m ≤ word.length
  · rw [if_pos h]; exact ha m
  · rw [if_neg h]; exact hc

theorem genLoop_noRun (chars : List Nat) (priority pp maxUsage : Nat) :
    ∀ (n i : Nat) (word : List Nat) (used : Nat → Nat) (prev cia : Nat) (rng : List Nat),
      (∀ m, rend (word.take m) ≤ 3) →
      cia ≤ 2 →
      (if i ≤ pp then SyncInv word prev cia else PostInv word prev cia) →
      ∀ m, rend ((genLoop chars priority pp maxUsage n i word used prev cia rng).1.take m) ≤ 3 := by
  intro n
  induction n with
  | zero =>
    intro i word used prev cia rng ha _ _ m
    simpa [genLoop] using ha m
  | succ k ih =>
    intro i word used prev cia rng ha hcia hreg
    rw [genLoop]
    by_cases hpl : i = pp ∧ prev ≠ priority
    · rw [if_pos hpl]
      have hsync : SyncInv word prev cia := by
        rw [if_pos (le_of_eq hpl.1)] at hreg
        exact hreg
      obtain ⟨hr1, hpost⟩ := placement_step word prev cia priority hsync hpl.2
      refine ih (i + 1) _ _ prev cia rng ?_ hcia ?_
      · exact prefixRun_append word priority ha (by omega)
      · rw [if_neg (by omega)]
        exact hpost
    · rw [if_neg hpl]
      simp only []
      rcases hpick : getRandomCharacter chars used maxUsage (if cia = 2 then prev else 0) rng
        with ⟨c0, rng2⟩
      by_cases hbk : c0 = runeSpace
      · rw [if_pos hbk]
        intro m
        show rend (word.take m) ≤ 3
        exact ha m
      · rw [if_neg hbk]
        have hne : c0 ≠ (if cia = 2 then prev else 0) := by
          rcases grc_spec chars used maxUsage (if cia = 2 then prev else 0) rng with
            ⟨hsp, _⟩ | ⟨_, hx, _⟩
          · rw [hpick] at hsp; exact absurd hsp hbk
          · rw [hpick] at hx; exact hx
        by_cases hip : i ≤ pp
        · rw [if_pos hip] at hreg
          obtain ⟨hsync2, hr2, hcia2⟩ := sync_pick_step word prev cia c0 hreg hcia hne
          refine ih (i + 1) _ _ c0 _ rng2 ?_ hcia2 ?_
          · exact prefixRun_append word c0 ha (by omega)
          · by_cases hip2 : i + 1 ≤ pp
            · rw [if_pos hip2]
              exact hsync2
            · rw [if_neg hip2]
              exact sync_to_post _ _ _ hsync2
        · rw [if_neg hip] at hreg
          obtain ⟨hpost2, hr2, hcia2⟩ := post_pick_step word prev cia c0 hreg hcia hne
          refine ih (i + 1) _ _ c0 _ rng2 ?_ hcia2 ?_
          · exact prefixRun_append word c0 ha hr2
          · rw [if_neg (by omega)]
            exact hpost2

theorem generateWord_noRun (chars : List Nat) (priority minLength maxLength : Nat)
    (rng : List Nat) :
    ∀ m, rend ((GenerateWord chars priority minLength maxLength rng).1.take m) ≤ 3 := by
  rw [GenerateWord]
  exact genLoop_noRun chars priority
    (rng.tail.headD 0 % wordTargetLength minLength maxLength rng)
    (wordTargetLength minLength maxLength rng / 2)
    (wordTargetLength minLength maxLength rng) 0 [] (fun _ => 0) 0 0 rng.tail.tail
    (by intro m; simp [rend_nil]) (by omega)
    (by rw [if_pos (Nat.zero_le _)]; exact Or.inl ⟨rfl, rfl, rfl⟩)

/-- C2 (amended): in every generated word, with `L` the drawn target length,
every character other than the priority character occurs at most `⌊L/2⌋`
times, the priority character occurs at most `⌊L/2⌋ + 1` times (its placement
step skips the usage bound), and no run of identical consecutive characters
is longer than 3 (runs of exactly 3 can occur, through the placement step not
updating the run tracker). -/
theorem c2_theorem : ∀ (chars : List Nat) (priority minLength maxLength : Nat)
    (rng : List Nat),
    (∀ c, c ≠ priority → (GenerateWord chars priority minLength maxLength rng).1.count c
      ≤ wordTargetLength minLength maxLength rng / 2) ∧
    (GenerateWord chars priority minLength maxLength rng).1.count priority
      ≤ wordTargetLength minLength maxLength rng / 2 + 1 ∧
    (∀ m, rend ((GenerateWord chars priority minLength maxLength rng).1.take m) ≤ 3) := by
  intro chars priority minLength maxLength rng
  obtain ⟨h1, h2⟩ := generateWord_count chars priority minLength maxLength rng
  exact ⟨h1, h2, generateWord_noRun chars priority minLength maxLength rng⟩

/-- C2 counterexample: with `chars = "ab"`, priority `'a'`, `minLen = 6 <
maxLen = 7` (all the claim's preconditions hold), one possible random stream
yields the word `baaabb`, whose positions 1-3 are a run of three identical
characters, refuting the claimed absence of runs of 3 or more. -/
theorem c2_counterexample :
    (97 ∈ ([97, 98] : List Nat)) ∧ 0 < 6 ∧ 6 < 7 ∧
    (GenerateWord [97, 98] 97 6 7 [0, 1, 1, 0, 0, 0, 0]).1 = [98, 97, 97, 97, 98, 98] ∧
    2 < rend ((GenerateWord [97, 98] 97 6 7 [0, 1, 1, 0, 0, 0, 0]).1.take 4) := by
  refine ⟨by decide, by decide, by decide, by decide, by decide⟩

/-- C1 (amended): for `priority ∈ chars` (with `priority` not the zero rune
and `' ' ∉ chars`) and `0 < minLen < maxLen`, every generated word contains
the priority character at least once and has length strictly below `maxLen`;
the length can fall short of `minLen` when candidate exhaustion terminates
construction early. -/
theorem c1_theorem : ∀ (chars : List Nat) (priority minLength maxLength : Nat)
    (rng : List Nat),
    priority ∈ chars → priority ≠ 0 → runeSpace ∉ chars →
    0 < minLength → minLength < maxLength →
    priority ∈ (GenerateWord chars priority minLength maxLength rng).1 ∧
    (GenerateWord chars priority minLength maxLength rng).1.length < maxLength := by
  intro chars priority minLength maxLength rng hpc hpz hsp hmin hlt
  exact ⟨generateWord_contains chars priority minLength maxLength rng hpc hpz hsp hmin,
    generateWord_length_lt chars priority minLength maxLength rng hlt⟩

/-- C1 witness: the amended statement applied at `chars = "ab"`,
priority `'a'`, `minLen = 2`, `maxLen = 4`, one concrete random stream. -/
theorem c1_witness :
    ((97 ∈ ([97, 98] : List Nat)) ∧ (97 : Nat) ≠ 0 ∧ runeSpace ∉ ([97, 98] : List Nat) ∧
      0 < 2 ∧ 2 < 4) ∧
    (97 ∈ (GenerateWord [97, 98] 97 2 4 [0, 0, 0, 0]).1 ∧
      (GenerateWord [97, 98] 97 2 4 [0, 0, 0, 0]).1.length < 4) := by
  exact ⟨by decide,
    c1_theorem [97, 98] 97 2 4 [0, 0, 0, 0] (by decide) (by decide) (by decide)
      (by decide) (by decide)⟩

/-- C1 counterexample: with `chars = "a"`, priority `'a'`, `minLen = 2`,
`maxLen = 3` (all preconditions of the claim hold), candidate exhaustion
stops construction after one character: the word is `"a"`, of length 1,
outside `[minLen, maxLen)`. -/
theorem c1_counterexample :
    (97 ∈ ([97] : List Nat)) ∧ 0 < 2 ∧ 2 < 3 ∧
    (GenerateWord [97] 97 2 3 [0, 0]).1 = [97] ∧
    ¬ 2 ≤ (GenerateWord [97] 97 2 3 [0, 0]).1.length := by
  refine ⟨by decide, by decide, by decide, by decide, by decide⟩

/-- C5 (amended): the sampler always returns exactly `amount` words, and
every returned word uses only characters of `chars`, contains the priority
character, and has length at most `maxLen`; corpus-drawn words additionally
satisfy the `minLen` lower bound, but words synthesized by the generator
fallback can be shorter than `minLen`. -/
theorem c5_theorem : ∀ (corpus : List (List Nat)) (chars : List Nat)
    (priority minLength maxLength amount : Nat) (rng : List Nat),
    priority ∈ chars → priority ≠ 0 → runeSpace ∉ chars →
    0 < minLength → minLength < maxLength →
    (GetWordsFromChars corpus chars priority minLength maxLength amount rng).length = amount ∧
    ∀ w ∈ GetWordsFromChars corpus chars priority minLength maxLength amount rng,
      (∀ c ∈ w, c ∈ chars) ∧ priority ∈ w ∧ w.length ≤ maxLength := by
  intro corpus chars priority minLength maxLength amount rng hpc hpz hsp hmin hlt
  constructor
  · rw [GetWordsFromChars]
    exact drawLoop_length _ amount _
  · intro w hw
    rw [GetWordsFromChars] at hw
    have hpl := candidatePool_len corpus chars priority minLength maxLength rng
    have hw2 := drawLoop_mem _ (by omega) amount _ w hw
    rw [candidatePool] at hw2
    rcases topUp_mem chars priority minLength maxLength 4
        (foundWords corpus chars priority minLength maxLength) 0 rng w (by omega) hw2 with
      hfound | ⟨r, hr⟩
    · obtain ⟨_, hmatch⟩ := List.mem_filter.mp hfound
      rw [wordMatches] at hmatch
      simp only [Bool.and_eq_true, decide_eq_true_eq, List.all_eq_true] at hmatch
      exact ⟨fun c hc => List.mem_of_elem_eq_true (hmatch.1.2 c hc),
        List.mem_of_elem_eq_true hmatch.2, hmatch.1.1.1⟩
    · subst hr
      exact ⟨generateWord_subset chars priority minLength maxLength r hpc,
        generateWord_contains chars priority minLength maxLength r hpc hpz hsp hmin,
        le_of_lt (generateWord_length_lt chars priority minLength maxLength r hlt)⟩

/-- C5 witness: the amended statement applied to the corpus `["cat"]` with
`chars = "cat"`, priority `'t'`, lengths `[3, 4)`, amount 2. -/
theorem c5_witness :
    ((116 ∈ ([99, 97, 116] : List Nat)) ∧ (116 : Nat) ≠ 0 ∧
      runeSpace ∉ ([99, 97, 116] : List Nat) ∧ 0 < 3 ∧ 3 < 4) ∧
    ((GetWordsFromChars [[99, 97, 116]] [99, 97, 116] 116 3 4 2 [0, 0, 0, 0, 0, 0]).length = 2 ∧
      ∀ w ∈ GetWordsFromChars [[99, 97, 116]] [99, 97, 116] 116 3 4 2 [0, 0, 0, 0, 0, 0],
        (∀ c ∈ w, c ∈ ([99, 97, 116] : List Nat)) ∧ 116 ∈ w ∧ w.length ≤ 4) := by
  exact ⟨by decide,
    c5_theorem [[99, 97, 116]] [99, 97, 116] 116 3 4 2 [0, 0, 0, 0, 0, 0]
      (by decide) (by decide) (by decide) (by decide) (by decide)⟩

/-- C5 counterexample: over the empty corpus with `chars = "a"`, priority
`'a'`, `minLen = 2`, `maxLen = 3`, the sampler returns the fallback-generated
word `"a"`, of length 1 < `minLen`, refuting the claimed inclusive length
bound for every returned word. -/
theorem c5_counterexample :
    (97 ∈ ([97] : List Nat)) ∧ 0 < 2 ∧ 2 < 3 ∧
    GetWordsFromChars [] [97] 97 2 3 1 [0, 0, 0, 0, 0] = [[97]] ∧
    ¬ 2 ≤ ([97] : List Nat).length := by
  refine ⟨by decide, by decide, by decide, ?_, by decide⟩
  simp [GetWordsFromChars, candidatePool, topUp, foundWords, foldedCorpus, GenerateWord,
    wordTargetLength, genLoop, getRandomCharacter, bumpUsage, runeSpace, drawLoop]
